import Mathlib

/-!
# MeiliES core: a shallow embedding in Lean 4

This file embeds, at the byte level, the parts of the MeiliES sources that the
verified claims are about:

* the RESP wire codec (`meilies/src/resp/codec.rs`),
* stream specifier parsing (`meilies/src/stream/stream.rs`, `stream_name.rs`),
* the stored raw-event value (`meilies/src/stream/raw_event.rs`),
* the request parser (`meilies/src/reqresp/request.rs`),
* the server event-numbering, publish and bounded subscription worker
  (`meilies-server/src/main.rs`),
* the resilient subscription clients (`meilies-client/src/sub.rs`,
  `meilies-async-cli/src/main.rs`).

Rust byte strings (`&[u8]`, `Vec<u8>`, `String` as its UTF-8 bytes) are
represented as `List Nat`; machine integers are `Nat`/`Int` with explicit
`% 2 ^ 64` (resp. wrapping into `[-2^63, 2^63)`) where overflow matters.
Recursions that Rust performs on a growable buffer are given an explicit
fuel argument so that every definition is structurally recursive and
evaluates inside the kernel; a fuel of `buffer length + 1` always suffices
because each recursive step consumes at least one byte.
-/

/-! ## Decimal ASCII digits

`usize::to_string` / `u64 Display` produce the decimal digits of a number,
most significant first, with no leading zeros and no sign.
`natToDigitsAux` is the fueled worker; fuel `n + 1` always suffices. -/

def natToDigitsAux : Nat → Nat → List Nat
  | 0, _ => []
  | fuel + 1, n =>
    if n < 10 then [n + 48]
    else natToDigitsAux fuel (n / 10) ++ [n % 10 + 48]

/-- ASCII decimal rendering of a natural number (`n.to_string()` in Rust). -/
def natToDigits (n : Nat) : List Nat :=
  natToDigitsAux (n + 1) n

/-- Parse a run of ASCII digits, most significant first, accumulating into
`acc`; `none` on any non-digit byte.  This is the digit loop shared by
`u64::from_str_radix` and `i64::from_str_radix` (radix 10). -/
def parseDigits : Nat → List Nat → Option Nat
  | acc, [] => some acc
  | acc, c :: rest =>
    if 48 ≤ c ∧ c ≤ 57 then parseDigits (acc * 10 + (c - 48)) rest
    else none

/-! ## Integer parsing and printing (`from_str_radix` radix 10, `to_string`)

`u64::from_str_radix` accepts an optional leading `'+'` then one or more
digits, and fails on overflow; since appending digits only grows the value,
overflow happens exactly when the final value exceeds the maximum.
`i64::from_str_radix` additionally accepts a leading `'-'`. -/

/-- The overflow check of `u64::from_str_radix`. -/
def checkU64 (o : Option Nat) : Option Nat :=
  o.bind fun v => if v < 2 ^ 64 then some v else none

def parseU64 : List Nat → Option Nat
  | [] => none
  | c :: rest =>
    match (if c = 43 then rest else c :: rest) with
    | [] => none
    | d :: ds => checkU64 (parseDigits 0 (d :: ds))

def parseI64 (s : List Nat) : Option Int :=
  match s with
  | [] => none
  | c :: rest =>
    if c = 43 then
      match rest with
      | [] => none
      | _ :: _ =>
        (parseDigits 0 rest).bind fun v =>
          if v ≤ 2 ^ 63 - 1 then some (v : Int) else none
    else if c = 45 then
      match rest with
      | [] => none
      | _ :: _ =>
        (parseDigits 0 rest).bind fun v =>
          if v ≤ 2 ^ 63 then some (-(v : Int)) else none
    else
      (parseDigits 0 s).bind fun v =>
        if v ≤ 2 ^ 63 - 1 then some (v : Int) else none

/-- `i64 Display`: sign followed by the decimal digits of the magnitude. -/
def intToDigits (i : Int) : List Nat :=
  if i < 0 then 45 :: natToDigits i.natAbs else natToDigits i.toNat

/-! ## UTF-8 validation (`str::from_utf8`)

Rust validates UTF-8 with the standard table: ASCII, two-byte `C2..DF`,
three-byte `E0 A0..BF`, `E1..EC`, `ED 80..9F`, `EE..EF`, four-byte
`F0 90..BF`, `F1..F3`, `F4 80..8F`, each followed by continuation bytes
`80..BF`. -/

def utf8Cont (b : Nat) : Bool := decide (128 ≤ b ∧ b ≤ 191)

def validUtf8 : List Nat → Bool
  | [] => true
  | b :: rest =>
    if b ≤ 127 then validUtf8 rest
    else if 194 ≤ b ∧ b ≤ 223 then
      match rest with
      | c1 :: r => utf8Cont c1 && validUtf8 r
      | [] => false
    else if b = 224 then
      match rest with
      | c1 :: c2 :: r => decide (160 ≤ c1 ∧ c1 ≤ 191) && utf8Cont c2 && validUtf8 r
      | _ => false
    else if 225 ≤ b ∧ b ≤ 236 then
      match rest with
      | c1 :: c2 :: r => utf8Cont c1 && utf8Cont c2 && validUtf8 r
      | _ => false
    else if b = 237 then
      match rest with
      | c1 :: c2 :: r => decide (128 ≤ c1 ∧ c1 ≤ 159) && utf8Cont c2 && validUtf8 r
      | _ => false
    else if 238 ≤ b ∧ b ≤ 239 then
      match rest with
      | c1 :: c2 :: r => utf8Cont c1 && utf8Cont c2 && validUtf8 r
      | _ => false
    else if b = 240 then
      match rest with
      | c1 :: c2 :: c3 :: r =>
        decide (144 ≤ c1 ∧ c1 ≤ 191) && utf8Cont c2 && utf8Cont c3 && validUtf8 r
      | _ => false
    else if 241 ≤ b ∧ b ≤ 243 then
      match rest with
      | c1 :: c2 :: c3 :: r => utf8Cont c1 && utf8Cont c2 && utf8Cont c3 && validUtf8 r
      | _ => false
    else if b = 244 then
      match rest with
      | c1 :: c2 :: c3 :: r =>
        decide (128 ≤ c1 ∧ c1 ≤ 143) && utf8Cont c2 && utf8Cont c3 && validUtf8 r
      | _ => false
    else false

/-! ## RESP codec (`meilies/src/resp/codec.rs`)

`RespValue` carries its strings as UTF-8 byte lists.  `findCRLF` is
`buf.find(CRLF_NEWLINE)`: the index of the first `\r\n` subslice. -/

inductive RespValue where
  | simpleString (s : List Nat)
  | error (s : List Nat)
  | integer (i : Int)
  | bulkString (b : List Nat)
  | array (elems : List RespValue)
  | nil

inductive RespError where
  | invalidPrefixByte (b : Nat)
  | invalidInteger
  | invalidUtf8String
  | simpleStringContainCrlf
  | missingBulkStringFinalCrlf
  | outOfFuel
  deriving DecidableEq

def crlf : List Nat := [13, 10]

/-- `buf.find(CRLF_NEWLINE)` (subslice search, first occurrence). -/
def findCRLF : List Nat → Option Nat
  | 13 :: 10 :: _ => some 0
  | _ :: rest => (findCRLF rest).map (· + 1)
  | [] => none

/-- `decode_until_crlf`: the bytes strictly before the first `\r\n`,
or `none` when the buffer holds no complete CRLF-terminated line yet. -/
def decodeUntilCrlf (buf : List Nat) : Option (List Nat) :=
  (findCRLF buf).map fun off => buf.take off

mutual
/-- `RespCodec::encode`.  Fails (`SimpleStringContainCrlf`) when a simple
string or error contains CRLF; all other variants always encode. -/
def encodeResp : RespValue → Except RespError (List Nat)
  | .simpleString s =>
    if (findCRLF s).isSome then .error .simpleStringContainCrlf
    else .ok (43 :: (s ++ crlf))
  | .error s =>
    if (findCRLF s).isSome then .error .simpleStringContainCrlf
    else .ok (45 :: (s ++ crlf))
  | .integer i => .ok (58 :: (intToDigits i ++ crlf))
  | .bulkString b => .ok (36 :: (natToDigits b.length ++ crlf ++ b ++ crlf))
  | .array elems =>
    match encodeList elems with
    | .ok payload => .ok (42 :: (natToDigits elems.length ++ crlf ++ payload))
    | .error e => .error e
  | .nil => .ok (36 :: ([45, 49] ++ crlf))
/-- The element loop of the `Array` arm of `RespCodec::encode`. -/
def encodeList : List RespValue → Except RespError (List Nat)
  | [] => .ok []
  | v :: vs =>
    match encodeResp v with
    | .ok bytes =>
      match encodeList vs with
      | .ok rest => .ok (bytes ++ rest)
      | .error e => .error e
    | .error e => .error e
end

/-- The wrapped `length + CRLF_NEWLINE.len() as i64` sum of
`decode_bulk_string` (the `// FIXME handle overflows !!!` line): `i64`
addition wraps into `[-2^63, 2^63)` in release builds. -/
def i64Wrap (z : Int) : Int := (z + 2 ^ 63) % 2 ^ 64 - 2 ^ 63

/-- `decode_simple_string`. -/
def decodeSimpleString (buf : List Nat) : Except RespError (Option (RespValue × Nat)) :=
  match findCRLF buf with
  | some off =>
    let bytesString := buf.take off
    if validUtf8 bytesString then .ok (some (.simpleString bytesString, off + 2))
    else .error .invalidUtf8String
  | none => .ok none

/-- `decode_error`. -/
def decodeError (buf : List Nat) : Except RespError (Option (RespValue × Nat)) :=
  match findCRLF buf with
  | some off =>
    let bytesString := buf.take off
    if validUtf8 bytesString then .ok (some (.error bytesString, off + 2))
    else .error .invalidUtf8String
  | none => .ok none

/-- `decode_integer`. -/
def decodeInteger (buf : List Nat) : Except RespError (Option (RespValue × Nat)) :=
  match findCRLF buf with
  | some off =>
    let bytesString := buf.take off
    if validUtf8 bytesString then
      match parseI64 bytesString with
      | some i => .ok (some (.integer i, off + 2))
      | none => .error .invalidInteger
    else .error .invalidUtf8String
  | none => .ok none

/-- `decode_bulk_string`.  Note: after checking that `length + 2` bytes are
available, the payload is read with `decode_until_crlf` — i.e. up to the
first CRLF — not by taking exactly `length` bytes. -/
def decodeBulkString (buf : List Nat) : Except RespError (Option (RespValue × Nat)) :=
  match findCRLF buf with
  | some off =>
    let bytesString := buf.take off
    if validUtf8 bytesString then
      match parseI64 bytesString with
      | some length =>
        let advance := off + 2
        let buf2 := buf.drop advance
        if length < 0 then .ok (some (.nil, advance))
        else if (buf2.length : Int) ≥ i64Wrap (length + 2) then
          match findCRLF buf2 with
          | some off2 =>
            let bytes := buf2.take off2
            .ok (some (.bulkString bytes, advance + bytes.length + 2))
          | none => .error .missingBulkStringFinalCrlf
        else .ok none
      | none => .error .invalidInteger
    else .error .invalidUtf8String
  | none => .ok none

/-- The `for _ in 0..length` element loop of `decode_array`: decode `count`
consecutive messages, accumulating the advance. -/
def decodeElems (dec : List Nat → Except RespError (Option (RespValue × Nat))) :
    Nat → List Nat → Except RespError (Option (List RespValue × Nat))
  | 0, _ => .ok (some ([], 0))
  | count + 1, buf =>
    match dec buf with
    | .ok (some (v, adv)) =>
      match decodeElems dec count (buf.drop adv) with
      | .ok (some (vs, adv2)) => .ok (some (v :: vs, adv + adv2))
      | .ok none => .ok none
      | .error e => .error e
    | .ok none => .ok none
    | .error e => .error e

/-- `decode_array` (parameterized by the message decoder used per element). -/
def decodeArray (dec : List Nat → Except RespError (Option (RespValue × Nat)))
    (buf : List Nat) : Except RespError (Option (RespValue × Nat)) :=
  match findCRLF buf with
  | some off =>
    let bytesString := buf.take off
    if validUtf8 bytesString then
      match parseI64 bytesString with
      | some length =>
        let advance := off + 2
        if length < 0 then .ok (some (.nil, advance))
        else
          match decodeElems dec length.toNat (buf.drop advance) with
          | .ok (some (vs, adv2)) => .ok (some (.array vs, advance + adv2))
          | .ok none => .ok none
          | .error e => .error e
      | none => .error .invalidInteger
    else .error .invalidUtf8String
  | none => .ok none

/-- `decode_message`, with explicit recursion fuel (decremented at every
nested message decode; `buffer length + 1` always suffices because a nested
array level consumes at least its header). -/
def decodeMessageF : Nat → List Nat → Except RespError (Option (RespValue × Nat))
  | 0, _ => .error .outOfFuel
  | fuel + 1, buf =>
    match buf with
    | [] => .ok none
    | b :: rest =>
      let result :=
        if b = 43 then decodeSimpleString rest
        else if b = 45 then decodeError rest
        else if b = 58 then decodeInteger rest
        else if b = 36 then decodeBulkString rest
        else if b = 42 then decodeArray (fun sub => decodeMessageF fuel sub) rest
        else .error (.invalidPrefixByte b)
      match result with
      | .ok (some (msg, advance)) => .ok (some (msg, advance + 1))
      | .ok none => .ok none
      | .error e => .error e

/-- `RespCodec::decode` on a buffer: the decoded message and the number of
bytes split off the front of the buffer (`buf.split_to(advance)`), `none`
when more bytes are needed. -/
def decodeMessage (buf : List Nat) : Except RespError (Option (RespValue × Nat)) :=
  decodeMessageF (buf.length + 1) buf

/-! ## Stream names and subscription specifiers
(`meilies/src/stream/stream_name.rs`, `stream.rs`)

Names and textual specifiers are UTF-8 byte lists; the colon is byte 58,
which in UTF-8 can only occur as the character `':'`. -/

inductive StreamNameError where
  | emptyName
  | containColon
  deriving DecidableEq

/-- `StreamName::new`: non-empty and free of `':'`. -/
def streamNameNew (name : List Nat) : Except StreamNameError (List Nat) :=
  if name = [] then .error .emptyName
  else if 58 ∈ name then .error .containColon
  else .ok name

/-- The reserved `$all` stream name (`ALL_STREAMS`). -/
def allStreamsName : List Nat := [36, 97, 108, 108]

inductive ReadRange where
  | readFromUntil (f t : Nat)
  | readFrom (f : Nat)
  | readFromEnd
  deriving DecidableEq

/-- `ReadRange::from`. -/
def ReadRange.rangeFrom : ReadRange → Option Nat
  | .readFromUntil f _ => some f
  | .readFrom f => some f
  | .readFromEnd => none

/-- `ReadRange::to`. -/
def ReadRange.rangeTo : ReadRange → Option Nat
  | .readFromUntil _ t => some t
  | _ => none

/-- A subscription specifier (`Stream { name, range }`).  Named `EsStream`
after the alias the server and clients use for it. -/
structure EsStream where
  name : List Nat
  range : ReadRange
  deriving DecidableEq

inductive ParseStreamError where
  | streamNameError (e : StreamNameError)
  | startFromError
  | endToError
  | boundsError
  | formatError
  deriving DecidableEq

/-- `s.split(':')` on bytes: split at every occurrence of byte 58. -/
def splitColon : List Nat → List (List Nat)
  | [] => [[]]
  | c :: rest =>
    if c = 58 then [] :: splitColon rest
    else
      match splitColon rest with
      | p :: ps => (c :: p) :: ps
      | [] => [[c]]

/-- `Stream::from_str`: `name` | `name:u64` | `name:u64:u64`, requiring
`from < to` on the three-segment form. -/
def streamFromStr (s : List Nat) : Except ParseStreamError EsStream :=
  match splitColon s with
  | [name] =>
    match streamNameNew name with
    | .ok n => .ok ⟨n, .readFromEnd⟩
    | .error e => .error (.streamNameError e)
  | [name, fromS] =>
    match streamNameNew name with
    | .ok n =>
      match parseU64 fromS with
      | some f => .ok ⟨n, .readFrom f⟩
      | none => .error .startFromError
    | .error e => .error (.streamNameError e)
  | [name, fromS, toS] =>
    match streamNameNew name with
    | .ok n =>
      match parseU64 fromS with
      | some f =>
        match parseU64 toS with
        | some t =>
          if f ≥ t then .error .boundsError
          else .ok ⟨n, .readFromUntil f t⟩
        | none => .error .endToError
      | none => .error .startFromError
    | .error e => .error (.streamNameError e)
  | _ => .error .formatError

/-- `Display for Stream`: `name[:from[:to]]`. -/
def streamToStr (st : EsStream) : List Nat :=
  match st.range with
  | .readFromUntil f t => st.name ++ 58 :: (natToDigits f ++ 58 :: natToDigits t)
  | .readFrom f => st.name ++ 58 :: natToDigits f
  | .readFromEnd => st.name

/-! ## Raw stored events (`meilies/src/stream/raw_event.rs`)

The stored value is `u64 BE name_length || name_bytes || data_bytes`.
`name_size` builds an 8-byte array initialized to zero, copies the first
`min(8, len)` value bytes into it from position 0, and reads it back
big-endian — so values shorter than 8 bytes leave trailing zero bytes in
the *low-significance* positions. -/

def beToNat (l : List Nat) : Nat := l.foldl (fun acc b => acc * 256 + b) 0

/-- `RawEvent::name_size`. -/
def nameSize (value : List Nat) : Nat :=
  beToNat (value.take 8 ++ List.replicate (8 - (value.take 8).length) 0)

/-- Result of `RawEvent::name`: the Rust function indexes
`value[8..8 + name_size]`, which *panics* when `8 + name_size` exceeds the
value length; otherwise it UTF-8-decodes the slice and applies
`EventName::new` (which rejects only the empty name), either failure being
returned as an error. -/
inductive RawNameResult where
  | panicked
  | errored
  | okName (name : List Nat)
  deriving DecidableEq

/-- `RawEvent::name`. -/
def rawEventName (value : List Nat) : RawNameResult :=
  let ns := nameSize value
  if 8 + ns ≤ value.length then
    let rawName := (value.drop 8).take ns
    if validUtf8 rawName then
      if rawName = [] then .errored else .okName rawName
    else .errored
  else .panicked

/-- `usize::to_be_bytes` / `u64::to_be_bytes` (8 bytes, big-endian). -/
def toBE8 (n : Nat) : List Nat :=
  [n / 256 ^ 7 % 256, n / 256 ^ 6 % 256, n / 256 ^ 5 % 256, n / 256 ^ 4 % 256,
   n / 256 ^ 3 % 256, n / 256 ^ 2 % 256, n / 256 % 256, n % 256]

/-- The raw-event encoding built by the server's `Publish` arm:
`name_length BE || name || data`. -/
def encodeRawEvent (name data : List Nat) : List Nat :=
  toBE8 name.length ++ name ++ data

/-! ## Typed requests (`meilies/src/reqresp/request.rs`)

`Request::from_resp` reads an array of RESP values, converts the first to a
string command name and dispatches.  The subscribe arm collects every
argument through `Stream::from_resp` and special-cases `$all`.
The specifier type used here is the `ReadRange`-carrying `Stream` of
`stream/stream.rs` (the copy of `reqresp/request.rs` under `src/` predates
the range migration and carries only the `from` position of the found
`$all` specifier; the dispatch logic is identical). -/

/-- `String::from_resp`: simple strings and errors convert directly, bulk
strings are UTF-8-checked; conversion failures collapse to `none` (the
request parser maps them all to `InvalidArgumentRespType`). -/
def stringFromResp : RespValue → Option (List Nat)
  | .simpleString s => some s
  | .error s => some s
  | .bulkString b => if validUtf8 b then some b else none
  | _ => none

/-- `Vec<u8>::from_resp` (`EventData`): like strings but without the UTF-8
check on bulk strings. -/
def bytesFromResp : RespValue → Option (List Nat)
  | .simpleString s => some s
  | .error s => some s
  | .bulkString b => some b
  | _ => none

/-- `Stream::from_resp`. -/
def streamFromResp (v : RespValue) : Option EsStream :=
  (stringFromResp v).bind fun s => (streamFromStr s).toOption

/-- `StreamName::from_resp`. -/
def streamNameFromResp (v : RespValue) : Option (List Nat) :=
  (stringFromResp v).bind fun s => (streamNameNew s).toOption

/-- `EventName::from_resp` (`EventName::new` rejects only the empty name). -/
def eventNameFromResp (v : RespValue) : Option (List Nat) :=
  (stringFromResp v).bind fun s => if s = [] then none else some s

inductive Request where
  | subscribeAll (range : ReadRange)
  | subscribe (streams : List EsStream)
  | publish (stream eventName eventData : List Nat)
  | lastEventNumber (stream : List Nat)
  | streamNames
  deriving DecidableEq

inductive RespRequestConvertError where
  | invalidCommandRespType
  | invalidArgumentRespType
  | missingCommandName
  | unknownCommandName
  | missingArgument
  | tooManyArguments
  deriving DecidableEq

def subscribeBytes : List Nat := [115, 117, 98, 115, 99, 114, 105, 98, 101]

def publishBytes : List Nat := [112, 117, 98, 108, 105, 115, 104]

def lastEventNumberBytes : List Nat :=
  [108, 97, 115, 116, 45, 101, 118, 101, 110, 116, 45, 110, 117, 109, 98, 101, 114]

def streamNamesBytes : List Nat :=
  [115, 116, 114, 101, 97, 109, 45, 110, 97, 109, 101, 115]

/-- `Request::from_resp`. -/
def requestFromResp (v : RespValue) : Except RespRequestConvertError Request :=
  match v with
  | .array elems =>
    match elems with
    | [] => .error .missingCommandName
    | cmd :: args =>
      match stringFromResp cmd with
      | none => .error .invalidArgumentRespType
      | some command =>
        if command = subscribeBytes then
          match args.mapM streamFromResp with
          | none => .error .invalidArgumentRespType
          | some streams =>
            match streams.find? (fun st => decide (st.name = allStreamsName)) with
            | some st => .ok (.subscribeAll st.range)
            | none => .ok (.subscribe streams)
        else if command = publishBytes then
          match args with
          | [] => .error .missingArgument
          | a1 :: args1 =>
            match streamNameFromResp a1 with
            | none => .error .invalidArgumentRespType
            | some sn =>
              match args1 with
              | [] => .error .missingArgument
              | a2 :: args2 =>
                match eventNameFromResp a2 with
                | none => .error .invalidArgumentRespType
                | some en =>
                  match args2 with
                  | [] => .error .missingArgument
                  | a3 :: args3 =>
                    match bytesFromResp a3 with
                    | none => .error .invalidArgumentRespType
                    | some ed =>
                      match args3 with
                      | [] => .ok (.publish sn en ed)
                      | _ :: _ => .error .tooManyArguments
        else if command = lastEventNumberBytes then
          match args with
          | [] => .error .missingArgument
          | a1 :: args1 =>
            match streamNameFromResp a1 with
            | none => .error .invalidArgumentRespType
            | some sn =>
              match args1 with
              | [] => .ok (.lastEventNumber sn)
              | _ :: _ => .error .tooManyArguments
        else if command = streamNamesBytes then .ok .streamNames
        else .error .unknownCommandName
  | _ => .error .invalidCommandRespType

/-! ## Association-list maps

Finite maps (sled trees keyed by byte strings or 8-byte BE numbers, the
clients' `HashMap`s) are modeled as association lists with
insert-or-update (`assocPut`), lookup (`assocGet`) and remove
(`assocRemove`). -/

def assocGet {κ α : Type} [DecidableEq κ] : List (κ × α) → κ → Option α
  | [], _ => none
  | (k, v) :: rest, key => if k = key then some v else assocGet rest key

def assocPut {κ α : Type} [DecidableEq κ] : List (κ × α) → κ → α → List (κ × α)
  | [], key, v => [(key, v)]
  | (k, w) :: rest, key, v =>
    if k = key then (k, v) :: rest else (k, w) :: assocPut rest key v

/-- `EventNumber::next` (`self.0 + 1` on `u64`). -/
def eventNumberNext (n : Nat) : Nat := (n + 1) % 2 ^ 64

/-- `new_event_number`: atomic `update_and_fetch` on the counter key —
a missing counter becomes `EventNumber::zero()`, an existing one is
incremented — returning the new value. -/
def newEventNumber (counters : List (List Nat × Nat)) (name : List Nat) :
    Nat × List (List Nat × Nat) :=
  let previous := assocGet counters name
  let new := match previous with
             | none => 0
             | some p => eventNumberNext p
  (new, assocPut counters name new)

structure ServerState where
  counters : List (List Nat × Nat)
  trees : List (List Nat × List (Nat × List Nat))

/-- `db.open_tree(stream)`: the per-stream event tree, empty when absent. -/
def treeOf (st : ServerState) (stream : List Nat) : List (Nat × List Nat) :=
  (assocGet st.trees stream).getD []

/-- `handle_request`, `Publish` arm: allocate the next number *first*, then
insert `number ↦ raw_event` into the stream's tree; `insertFails` models a
`tree.set` store error, answered with an error reply while the already
advanced counter stays advanced.  Returns the new state, whether the reply
was `Ok`, and the allocated number. -/
def handlePublish (st : ServerState) (stream eventName eventData : List Nat)
    (insertFails : Bool) : ServerState × Bool × Nat :=
  let (eventNumber, counters2) := newEventNumber st.counters stream
  let raw := encodeRawEvent eventName eventData
  if insertFails then
    ({ counters := counters2, trees := st.trees }, false, eventNumber)
  else
    ({ counters := counters2,
       trees := assocPut st.trees stream (assocPut (treeOf st stream) eventNumber raw) },
     true, eventNumber)

/-- `handle_request`, `LastEventNumber` arm: `db.get(&stream)` on the
counter key. -/
def handleLastEventNumber (st : ServerState) (stream : List Nat) : Option Nat :=
  assocGet st.counters stream

/-- `k` sequential successful publishes of `(eventName, eventData)` to
`stream`. -/
def publishSeq (stream eventName eventData : List Nat) :
    Nat → ServerState → ServerState
  | 0, st => st
  | k + 1, st =>
    (handlePublish (publishSeq stream eventName eventData k st)
      stream eventName eventData false).1

/-! ## Server: the bounded subscription worker
(`send_stream_events`, `ReadRange::ReadFromUntil` arm)

The worker first drains `tree.range(from..to)` — modeled as the stored log
filtered to `[from, to)`, in log order — emitting each event, setting
`next = number + 1` and returning as soon as `next ≥ to`.  It then
consumes watcher insert events: an insert numbered `≥ to` makes it return;
one numbered `≥ next` is emitted (`next` is *not* advanced in the tail).
Events are `(number, raw value)` pairs; channel sends are assumed to
succeed (the subscriber stays connected). -/

def rangeScan (f t : Nat) (log : List (Nat × List Nat)) : List (Nat × List Nat) :=
  log.filter fun kv => decide (f ≤ kv.1 ∧ kv.1 < t)

/-- The catch-up loop.  Returns the emitted events and `some next` when the
scan drained (falling through to the tail), `none` when the worker returned
early because `next ≥ to`. -/
def scanPhase (t : Nat) : List (Nat × List Nat) → Nat →
    List (Nat × List Nat) × Option Nat
  | [], next => ([], some next)
  | (k, v) :: rest, _ =>
    if k + 1 ≥ t then ([(k, v)], none)
    else
      let (em, st) := scanPhase t rest (k + 1)
      ((k, v) :: em, st)

/-- The tail loop over watcher inserts.  Returns the emitted events and
whether the worker returned (saw an insert numbered `≥ to`). -/
def tailPhase (t next : Nat) : List (Nat × List Nat) → List (Nat × List Nat) × Bool
  | [] => ([], false)
  | (n, v) :: rest =>
    if n ≥ t then ([], true)
    else if n ≥ next then
      let (em, fin) := tailPhase t next rest
      ((n, v) :: em, fin)
    else tailPhase t next rest

/-- `send_stream_events` on `ReadFromUntil(f, t)`, over a stored log and a
subsequent sequence of watcher inserts: the emitted events in order, and
whether the worker returned. -/
def sendStreamEventsFromUntil (f t : Nat) (log watcher : List (Nat × List Nat)) :
    List (Nat × List Nat) × Bool :=
  match scanPhase t (rangeScan f t log) f with
  | (em, none) => (em, true)
  | (em, some next) =>
    let (em2, fin) := tailPhase t next watcher
    (em ++ em2, fin)

/-! ## Resilient sub client, `meilies-client/src/sub.rs`

`EventStream` keeps `state : HashMap<StreamName, Option<u64>>`.
`start_send` records every stream of an outgoing `Command::Subscribe`
*before* the request reaches the server; `poll` updates the position on
every received `Event` and swallows a `SubscribedTo` whenever its first
stream is already a key of the table. -/

inductive StartReadFrom where
  | eventNumber (n : Nat)
  | fromEnd
  deriving DecidableEq

/-- `impl From<StartReadFrom> for Option<u64>` (`from.into()` at
`start_send`). -/
def optionOfStartReadFrom : StartReadFrom → Option Nat
  | .eventNumber n => some n
  | .fromEnd => none

/-- The specifier type of the `StartReadFrom` generation of the client
(`Stream { name, from }`). -/
structure SubStreamSpec where
  name : List Nat
  readStart : StartReadFrom
  deriving DecidableEq

/-- The `Message` type the sub client decodes from the wire. -/
inductive SubMessage where
  | subscribedTo (streams : List (List Nat))
  | event (stream : List Nat) (number : Nat) (data : List Nat)
  deriving DecidableEq

abbrev SubState := List (List Nat × Option Nat)

/-- `EventStream::start_send` on a parsed `Command::Subscribe`: insert every
stream with its requested position. -/
def startSendSubscribe (st : SubState) (streams : List SubStreamSpec) : SubState :=
  streams.foldl (fun acc s => assocPut acc s.name (optionOfStartReadFrom s.readStart)) st

inductive PollOutcome where
  | forwardedMsg (st : SubState)
  | swallowed (st : SubState)
  | panicked
  deriving DecidableEq

/-- `EventStream::poll` processing one inbound message on an established
connection: on `Event`, store `number + 1` and forward; on `SubscribedTo`,
swallow when `state.contains_key(&streams[0])` (indexing panics on an empty
list), forward otherwise. -/
def pollMessage (st : SubState) (msg : SubMessage) : PollOutcome :=
  match msg with
  | .event name number _ => .forwardedMsg (assocPut st name (some (number + 1)))
  | .subscribedTo streams =>
    match streams with
    | [] => .panicked
    | s0 :: _ =>
      if (assocGet st s0).isSome then .swallowed st else .forwardedMsg st

abbrev CliSubs := List (List Nat × (Option Nat × Option Nat))

/-- The outbound `Request::Subscribe` bookkeeping of `initiate_connection`:
upsert each stream's range into the table. -/
def recordSubscribe (subs : CliSubs) (streams : List EsStream) : CliSubs :=
  streams.foldl
    (fun acc st => assocPut acc st.name (st.range.rangeFrom, st.range.rangeTo)) subs

theorem parseDigits_append (acc : Nat) (xs ys : List Nat) :
    parseDigits acc (xs ++ ys) =
      match parseDigits acc xs with
      | some a => parseDigits a ys
      | none => none := by
  induction xs generalizing acc with
  | nil => simp [parseDigits]
  | cons c rest ih =>
    by_cases h : 48 ≤ c ∧ c ≤ 57
    · simp [parseDigits, h, ih]
    · simp [parseDigits, h]

theorem natToDigitsAux_fuel (n : Nat) :
    ∀ f1 f2, n < f1 → n < f2 → natToDigitsAux f1 n = natToDigitsAux f2 n := by
  induction n using Nat.strong_induction_on with
  | _ n ih =>
    intro f1 f2 h1 h2
    match f1, f2 with
    | g1 + 1, g2 + 1 =>
      by_cases hn : n < 10
      · simp [natToDigitsAux, hn]
      · have hdiv : n / 10 < n := Nat.div_lt_self (by omega) (by omega)
        simp only [natToDigitsAux, if_neg hn]
        rw [ih _ hdiv g1 g2 (by omega) (by omega)]

theorem natToDigitsAux_eq (fuel n : Nat) (h : n < fuel) :
    natToDigitsAux fuel n = natToDigits n :=
  natToDigitsAux_fuel n fuel (n + 1) h (by omega)

theorem natToDigits_cons (n : Nat) (hn : ¬ n < 10) :
    natToDigits n = natToDigits (n / 10) ++ [n % 10 + 48] := by
  have hdiv : n / 10 < n := Nat.div_lt_self (by omega) (by omega)
  have h2 : natToDigits n = natToDigitsAux n (n / 10) ++ [n % 10 + 48] := by
    cases hf : n with
    | zero => omega
    | succ m => simp [natToDigits, natToDigitsAux, ← hf, hn]
  rw [h2, natToDigitsAux_eq _ _ (by omega)]

theorem natToDigits_ne_nil (n : Nat) : natToDigits n ≠ [] := by
  by_cases hn : n < 10
  · simp [natToDigits, natToDigitsAux, hn]
  · simp [natToDigits, natToDigitsAux, hn]

theorem natToDigits_digits (n : Nat) :
    ∀ c ∈ natToDigits n, 48 ≤ c ∧ c ≤ 57 := by
  induction n using Nat.strong_induction_on with
  | _ n ih =>
    intro c hc
    by_cases hn : n < 10
    · simp [natToDigits, natToDigitsAux, hn] at hc
      omega
    · have hdiv : n / 10 < n := Nat.div_lt_self (by omega) (by omega)
      rw [natToDigits_cons n hn] at hc
      rcases List.mem_append.1 hc with h | h
      · exact ih _ hdiv _ h
      · simp at h
        omega

/-- Parsing the digits of `n` starting from accumulator `acc` yields
`acc * 10 ^ (number of digits) + n`. -/
theorem parseDigits_natToDigits (n : Nat) :
    ∀ acc, parseDigits acc (natToDigits n)
      = some (acc * 10 ^ (natToDigits n).length + n) := by
  induction n using Nat.strong_induction_on with
  | _ n ih =>
    intro acc
    by_cases hn : n < 10
    · have hd : natToDigits n = [n + 48] := by
        simp [natToDigits, natToDigitsAux, hn]
      rw [hd]
      have hdig : 48 ≤ n + 48 ∧ n + 48 ≤ 57 := by omega
      simp [parseDigits, hdig, pow_one]
    · have hdiv : n / 10 < n := Nat.div_lt_self (by omega) (by omega)
      rw [natToDigits_cons n hn, parseDigits_append, ih _ hdiv acc]
      have hdig : 48 ≤ n % 10 + 48 ∧ n % 10 + 48 ≤ 57 := by omega
      simp only [parseDigits, if_pos hdig, List.length_append, List.length_cons,
        List.length_nil]
      congr 1
      have hpow : 10 ^ ((natToDigits (n / 10)).length + (0 + 1))
          = 10 ^ (natToDigits (n / 10)).length * 10 := by
        rw [pow_succ]
      rw [hpow]
      generalize (10 : Nat) ^ (natToDigits (n / 10)).length = K
      rw [show acc * (K * 10) = acc * K * 10 by ring]
      generalize acc * K = M
      omega

/-- Parsing the decimal rendering of `n` from accumulator `0` gives back `n`. -/
theorem parseDigits_natToDigits_zero (n : Nat) :
    parseDigits 0 (natToDigits n) = some n := by
  have := parseDigits_natToDigits n 0
  simpa using this

theorem parseU64_natToDigits (n : Nat) (h : n < 2 ^ 64) :
    parseU64 (natToDigits n) = some n := by
  obtain ⟨c, rest, hcr⟩ := List.exists_cons_of_ne_nil (natToDigits_ne_nil n)
  have hc : 48 ≤ c ∧ c ≤ 57 := natToDigits_digits n c (hcr ▸ List.mem_cons_self c rest)
  have hc43 : ¬ c = 43 := by omega
  have hparse := parseDigits_natToDigits_zero n
  rw [hcr] at hparse ⊢
  simp only [parseU64, if_neg hc43, hparse, checkU64, Option.bind]
  rw [if_pos h]

theorem parseI64_intToDigits (i : Int) (h1 : -(2 ^ 63) ≤ i) (h2 : i < 2 ^ 63) :
    parseI64 (intToDigits i) = some i := by
  by_cases hneg : i < 0
  · have hbound : i.natAbs ≤ 2 ^ 63 := by omega
    obtain ⟨c, rest, hcr⟩ := List.exists_cons_of_ne_nil (natToDigits_ne_nil i.natAbs)
    have hparse := parseDigits_natToDigits_zero i.natAbs
    rw [hcr] at hparse
    simp only [intToDigits, if_pos hneg, hcr, parseI64,
      if_neg (by omega : ¬ (45 : Nat) = 43), if_pos rfl, hparse, Option.bind]
    have habs : (-(i.natAbs : Int)) = i := by omega
    rw [if_pos hbound, habs]
    simp
  · obtain ⟨c, rest, hcr⟩ := List.exists_cons_of_ne_nil (natToDigits_ne_nil i.toNat)
    have hc : 48 ≤ c ∧ c ≤ 57 :=
      natToDigits_digits i.toNat c (hcr ▸ List.mem_cons_self c rest)
    have hparse := parseDigits_natToDigits_zero i.toNat
    rw [hcr] at hparse
    simp only [intToDigits, if_neg hneg, hcr, parseI64,
      if_neg (by omega : ¬ c = 43), if_neg (by omega : ¬ c = 45), hparse, Option.bind]
    have htn : ((i.toNat : Int)) = i := by omega
    rw [if_pos (by omega : i.toNat ≤ 2 ^ 63 - 1), htn]

theorem splitColon_ne_nil (s : List Nat) : splitColon s ≠ [] := by
  cases s with
  | nil => simp [splitColon]
  | cons c rest =>
    by_cases hc : c = 58
    · simp [splitColon, hc]
    · simp only [splitColon, if_neg hc]
      cases h : splitColon rest with
      | nil => simp
      | cons p ps => simp

theorem splitColon_no_colon (s : List Nat) (h : 58 ∉ s) : splitColon s = [s] := by
  induction s with
  | nil => simp [splitColon]
  | cons c rest ih =>
    have hc : ¬ c = 58 := fun hc => h (hc ▸ List.mem_cons_self c rest)
    have hrest : 58 ∉ rest := fun hr => h (List.mem_cons_of_mem c hr)
    simp only [splitColon, if_neg hc, ih hrest]

theorem splitColon_append (a b : List Nat) (h : 58 ∉ a) :
    splitColon (a ++ 58 :: b) = a :: splitColon b := by
  induction a with
  | nil => simp [splitColon]
  | cons c rest ih =>
    have hc : ¬ c = 58 := fun hc => h (hc ▸ List.mem_cons_self c rest)
    have hrest : 58 ∉ rest := fun hr => h (List.mem_cons_of_mem c hr)
    simp only [List.cons_append, splitColon, if_neg hc]
    rw [List.append_eq, ih hrest]

theorem splitColon_pieces (s : List Nat) : ∀ p ∈ splitColon s, 58 ∉ p := by
  induction s with
  | nil =>
    intro p hp
    simp [splitColon] at hp
    simp [hp]
  | cons c rest ih =>
    intro p hp
    by_cases hc : c = 58
    · simp only [splitColon, if_pos hc] at hp
      rcases List.mem_cons.1 hp with h | h
      · simp [h]
      · exact ih p h
    · simp only [splitColon, if_neg hc] at hp
      cases hsp : splitColon rest with
      | nil => exact absurd hsp (splitColon_ne_nil rest)
      | cons q qs =>
        rw [hsp] at hp
        rcases List.mem_cons.1 hp with h | h
        · subst h
          intro hmem
          rcases List.mem_cons.1 hmem with h' | h'
          · omega
          · exact ih q (hsp ▸ List.mem_cons_self q qs) h'
        · exact ih p (hsp ▸ List.mem_cons_of_mem q h)

theorem checkU64_some (o : Option Nat) (v : Nat) (h : checkU64 o = some v) :
    v < 2 ^ 64 := by
  cases o with
  | none => simp [checkU64, Option.bind] at h
  | some w =>
    simp only [checkU64, Option.bind] at h
    split at h
    · cases h
      assumption
    · cases h

theorem parseU64_some_lt (s : List Nat) (v : Nat) (h : parseU64 s = some v) :
    v < 2 ^ 64 := by
  match s with
  | [] => simp [parseU64] at h
  | c :: rest =>
    simp only [parseU64] at h
    split at h
    · cases h
    · exact checkU64_some _ _ h

theorem streamNameNew_ok_inv (a b : List Nat) (h : streamNameNew a = .ok b) :
    b = a ∧ a ≠ [] ∧ 58 ∉ a := by
  unfold streamNameNew at h
  split at h
  · exact Except.noConfusion h
  · rename_i hne
    split at h
    · exact Except.noConfusion h
    · rename_i hcol
      injection h with h
      exact ⟨h.symm, hne, hcol⟩

theorem streamNameNew_valid (a : List Nat) (h1 : a ≠ []) (h2 : 58 ∉ a) :
    streamNameNew a = .ok a := by
  unfold streamNameNew
  rw [if_neg h1, if_neg h2]

theorem natToDigits_no_colon (n : Nat) : 58 ∉ natToDigits n := by
  intro h
  have := natToDigits_digits n 58 h
  omega

/-- Formatting a successfully parsed specifier and re-parsing returns the
same specifier. -/
theorem streamFromStr_roundTrip (s : List Nat) (st : EsStream)
    (h : streamFromStr s = .ok st) :
    streamFromStr (streamToStr st) = .ok st := by
  unfold streamFromStr at h
  split at h
  · rename_i name hsp
    rcases hn : streamNameNew name with e | n
    · simp only [hn] at h
      exact Except.noConfusion h
    · simp only [hn] at h
      injection h with h
      subst h
      obtain ⟨hbn, hne, hcol⟩ := streamNameNew_ok_inv name n hn
      subst hbn
      simp only [streamToStr, streamFromStr, splitColon_no_colon _ hcol,
        streamNameNew_valid _ hne hcol]
  · rename_i name fromS hsp
    rcases hn : streamNameNew name with e | n
    · simp only [hn] at h
      exact Except.noConfusion h
    · simp only [hn] at h
      rcases hf : parseU64 fromS with _ | f
      · simp only [hf] at h
        exact Except.noConfusion h
      · simp only [hf] at h
        injection h with h
        subst h
        obtain ⟨hbn, hne, hcol⟩ := streamNameNew_ok_inv name n hn
        subst hbn
        have hflt := parseU64_some_lt fromS f hf
        simp only [streamToStr, streamFromStr,
          splitColon_append _ _ hcol, splitColon_no_colon _ (natToDigits_no_colon f),
          streamNameNew_valid _ hne hcol, parseU64_natToDigits f hflt]
  · rename_i name fromS toS hsp
    rcases hn : streamNameNew name with e | n
    · simp only [hn] at h
      exact Except.noConfusion h
    · simp only [hn] at h
      rcases hf : parseU64 fromS with _ | f
      · simp only [hf] at h
        exact Except.noConfusion h
      · simp only [hf] at h
        rcases ht : parseU64 toS with _ | t
        · simp only [ht] at h
          exact Except.noConfusion h
        · simp only [ht] at h
          split at h
          · exact Except.noConfusion h
          · rename_i hge
            injection h with h
            subst h
            obtain ⟨hbn, hne, hcol⟩ := streamNameNew_ok_inv name n hn
            subst hbn
            have hflt := parseU64_some_lt fromS f hf
            have htlt := parseU64_some_lt toS t ht
            have hsp : splitColon (n ++ 58 :: (natToDigits f ++ 58 :: natToDigits t))
                = [n, natToDigits f, natToDigits t] := by
              rw [splitColon_append _ _ hcol,
                splitColon_append _ _ (natToDigits_no_colon f),
                splitColon_no_colon _ (natToDigits_no_colon t)]
            simp only [streamToStr, streamFromStr, hsp,
              streamNameNew_valid _ hne hcol, parseU64_natToDigits f hflt,
              parseU64_natToDigits t htlt, if_neg hge]
  · exact Except.noConfusion h

/-- `Stream::from_str` succeeds exactly on `name`, `name:u64` and
`name:u64:u64` with a non-empty name and, on the three-segment form,
`from < to`.  (A piece produced by `split(':')` can never contain `':'`,
so non-emptiness is the whole name check.) -/
theorem streamFromStr_isOk_iff (s : List Nat) :
    (streamFromStr s).isOk = true ↔
      (match splitColon s with
       | [n] => n ≠ []
       | [n, fS] => n ≠ [] ∧ (parseU64 fS).isSome = true
       | [n, fS, tS] => n ≠ [] ∧
           ∃ f t, parseU64 fS = some f ∧ parseU64 tS = some t ∧ f < t
       | _ => False) := by
  rcases hsp : splitColon s with _ | ⟨n, _ | ⟨fS, _ | ⟨tS, _ | ⟨r4, rs⟩⟩⟩⟩
  · exact absurd hsp (splitColon_ne_nil s)
  · have hcol : 58 ∉ n := splitColon_pieces s n (hsp ▸ List.mem_cons_self n [])
    simp only [streamFromStr, hsp]
    by_cases hn : n = []
    · subst hn
      simp [streamNameNew, Except.isOk, Except.toBool]
    · simp only [streamNameNew_valid n hn hcol]
      simp [Except.isOk, Except.toBool, hn]
  · have hcol : 58 ∉ n := splitColon_pieces s n (hsp ▸ List.mem_cons_self n [fS])
    simp only [streamFromStr, hsp]
    by_cases hn : n = []
    · subst hn
      simp [streamNameNew, Except.isOk, Except.toBool]
    · simp only [streamNameNew_valid n hn hcol]
      cases hf : parseU64 fS with
      | none => simp [Except.isOk, Except.toBool, hn, hf]
      | some f => simp [Except.isOk, Except.toBool, hn, hf]
  · have hcol : 58 ∉ n := splitColon_pieces s n (hsp ▸ List.mem_cons_self n [fS, tS])
    simp only [streamFromStr, hsp]
    by_cases hn : n = []
    · subst hn
      simp [streamNameNew, Except.isOk, Except.toBool]
    · simp only [streamNameNew_valid n hn hcol]
      cases hf : parseU64 fS with
      | none => simp [Except.isOk, Except.toBool, hn, hf]
      | some f =>
        cases ht : parseU64 tS with
        | none => simp [Except.isOk, Except.toBool, hn, hf, ht]
        | some t =>
          by_cases hge : f ≥ t
          · simp [Except.isOk, Except.toBool, hn, hf, ht, hge]
          · simp [Except.isOk, Except.toBool, hn, hf, ht, hge]
            omega
  · simp only [streamFromStr, hsp]
    simp [Except.isOk, Except.toBool]

/-- On the three-segment form, `from >= to` yields exactly `BoundsError`. -/
theorem streamFromStr_boundsError (s n fS tS : List Nat) (f t : Nat)
    (hsp : splitColon s = [n, fS, tS]) (hn : n ≠ [])
    (hf : parseU64 fS = some f) (ht : parseU64 tS = some t) (hge : f ≥ t) :
    streamFromStr s = .error .boundsError := by
  have hcol : 58 ∉ n := splitColon_pieces s n (hsp ▸ List.mem_cons_self n [fS, tS])
  simp only [streamFromStr, hsp, streamNameNew_valid n hn hcol, hf, ht, if_pos hge]

theorem assocGet_put_self {κ α : Type} [DecidableEq κ]
    (l : List (κ × α)) (k : κ) (v : α) : assocGet (assocPut l k v) k = some v := by
  induction l with
  | nil => simp [assocGet, assocPut]
  | cons p rest ih =>
    obtain ⟨k', w⟩ := p
    by_cases hk : k' = k
    · simp [assocPut, assocGet, hk]
    · simp [assocPut, assocGet, hk, ih]

theorem assocGet_put_other {κ α : Type} [DecidableEq κ]
    (l : List (κ × α)) (k k' : κ) (v : α) (h : k' ≠ k) :
    assocGet (assocPut l k v) k' = assocGet l k' := by
  have h' : ¬ k = k' := fun hh => h hh.symm
  induction l with
  | nil => simp [assocGet, assocPut, h']
  | cons p rest ih =>
    obtain ⟨k0, w⟩ := p
    by_cases hk : k0 = k
    · subst hk
      simp [assocPut, assocGet, h']
    · by_cases hk' : k0 = k'
      · simp [assocPut, assocGet, hk, hk', h, h']
      · simp [assocPut, assocGet, hk, hk', ih]

/-! ### Properties of the bounded subscription worker -/

theorem rangeScan_mem (f t : Nat) (log : List (Nat × List Nat)) (x : Nat × List Nat) :
    x ∈ rangeScan f t log ↔ x ∈ log ∧ f ≤ x.1 ∧ x.1 < t := by
  simp [rangeScan, List.mem_filter]

theorem scanPhase_mem (t : Nat) (l : List (Nat × List Nat)) (nx : Nat) :
    ∀ x ∈ (scanPhase t l nx).1, x ∈ l := by
  induction l generalizing nx with
  | nil => simp [scanPhase]
  | cons p rest ih =>
    obtain ⟨k, v⟩ := p
    by_cases hk : k + 1 ≥ t
    · simp [scanPhase, hk]
    · intro x hx
      simp only [scanPhase, if_neg hk] at hx
      rcases List.mem_cons.1 hx with h | h
      · simp [h]
      · exact List.mem_cons_of_mem _ (ih (k + 1) x h)

theorem scanPhase_sublist (t : Nat) (l : List (Nat × List Nat)) (nx : Nat) :
    (scanPhase t l nx).1.Sublist l := by
  induction l generalizing nx with
  | nil => simp [scanPhase]
  | cons p rest ih =>
    obtain ⟨k, v⟩ := p
    by_cases hk : k + 1 ≥ t
    · simp only [scanPhase, if_pos hk]
      exact List.Sublist.cons₂ _ (List.nil_sublist rest)
    · simp only [scanPhase, if_neg hk]
      exact List.Sublist.cons₂ _ (ih (k + 1))

theorem scanPhase_some (t : Nat) (l : List (Nat × List Nat)) (nx : Nat)
    (hl : List.Pairwise (fun x y => x.1 < y.1) l) :
    ∀ n', (scanPhase t l nx).2 = some n' →
      (n' = nx ∨ ∃ x ∈ l, n' = x.1 + 1) ∧ ∀ x ∈ (scanPhase t l nx).1, x.1 < n' := by
  induction l generalizing nx with
  | nil =>
    intro n' h
    simp [scanPhase] at h
    subst h
    simp [scanPhase]
  | cons p rest ih =>
    obtain ⟨k, v⟩ := p
    intro n' h
    rcases List.pairwise_cons.1 hl with ⟨hhead, hrest⟩
    by_cases hk : k + 1 ≥ t
    · simp [scanPhase, hk] at h
    · simp only [scanPhase, if_neg hk] at h ⊢
      obtain ⟨hcase, hbound⟩ := ih (k + 1) hrest n' h
      constructor
      · right
        rcases hcase with hc | ⟨x, hx, hx'⟩
        · exact ⟨(k, v), List.mem_cons_self _ _, hc⟩
        · exact ⟨x, List.mem_cons_of_mem _ hx, hx'⟩
      · intro x hx
        rcases List.mem_cons.1 hx with hx' | hx'
        · subst hx'
          rcases hcase with hc | ⟨y, hy, hy'⟩
          · omega
          · have := hhead y hy
            omega
        · exact hbound x hx'

theorem scanPhase_none_iff (t : Nat) (l : List (Nat × List Nat)) (nx : Nat)
    (ht : ∀ x ∈ l, x.1 < t) :
    (scanPhase t l nx).2 = none ↔ ∃ v, (t - 1, v) ∈ l := by
  induction l generalizing nx with
  | nil => simp [scanPhase]
  | cons p rest ih =>
    obtain ⟨k, v⟩ := p
    have hkt : k < t := ht (k, v) (List.mem_cons_self _ _)
    by_cases hk : k + 1 ≥ t
    · have hk1 : k = t - 1 := by omega
      simp only [scanPhase, if_pos hk]
      constructor
      · intro _
        exact ⟨v, by simp [hk1]⟩
      · intro _
        trivial
    · have hne : ¬ k = t - 1 := by omega
      simp only [scanPhase, if_neg hk]
      rw [ih (k + 1) (fun x hx => ht x (List.mem_cons_of_mem _ hx))]
      constructor
      · rintro ⟨w, hw⟩
        exact ⟨w, List.mem_cons_of_mem _ hw⟩
      · rintro ⟨w, hw⟩
        rcases List.mem_cons.1 hw with hw' | hw'
        · exact absurd (congrArg Prod.fst hw').symm (by simpa using hne)
        · exact ⟨w, hw'⟩

theorem tailPhase_mem (t nx : Nat) (w : List (Nat × List Nat)) :
    ∀ x ∈ (tailPhase t nx w).1, nx ≤ x.1 ∧ x.1 < t := by
  induction w with
  | nil => simp [tailPhase]
  | cons p rest ih =>
    obtain ⟨n, v⟩ := p
    intro x hx
    by_cases h1 : n ≥ t
    · simp [tailPhase, h1] at hx
    · by_cases h2 : n ≥ nx
      · simp only [tailPhase, if_neg h1, if_pos h2] at hx
        rcases List.mem_cons.1 hx with hx' | hx'
        · subst hx'
          omega
        · exact ih x hx'
      · simp only [tailPhase, if_neg h1, if_neg h2] at hx
        exact ih x hx

theorem tailPhase_sublist (t nx : Nat) (w : List (Nat × List Nat)) :
    (tailPhase t nx w).1.Sublist w := by
  induction w with
  | nil => simp [tailPhase]
  | cons p rest ih =>
    obtain ⟨n, v⟩ := p
    by_cases h1 : n ≥ t
    · simp only [tailPhase, if_pos h1]
      exact List.nil_sublist _
    · by_cases h2 : n ≥ nx
      · simp only [tailPhase, if_neg h1, if_pos h2]
        exact List.Sublist.cons₂ _ ih
      · simp only [tailPhase, if_neg h1, if_neg h2]
        exact List.Sublist.cons _ ih

theorem tailPhase_fin_iff (t nx : Nat) (w : List (Nat × List Nat)) :
    (tailPhase t nx w).2 = true ↔ ∃ x ∈ w, t ≤ x.1 := by
  induction w with
  | nil => simp [tailPhase]
  | cons p rest ih =>
    obtain ⟨n, v⟩ := p
    by_cases h1 : n ≥ t
    · simp only [tailPhase, if_pos h1]
      constructor
      · intro _
        exact ⟨(n, v), List.mem_cons_self _ _, h1⟩
      · intro _
        trivial
    · have step : (tailPhase t nx ((n, v) :: rest)).2 = (tailPhase t nx rest).2 := by
        by_cases h2 : n ≥ nx
        · simp only [tailPhase, if_neg h1, if_pos h2]
        · simp only [tailPhase, if_neg h1, if_neg h2]
      rw [step, ih]
      constructor
      · rintro ⟨x, hx, hx'⟩
        exact ⟨x, List.mem_cons_of_mem _ hx, hx'⟩
      · rintro ⟨x, hx, hx'⟩
        rcases List.mem_cons.1 hx with hx'' | hx''
        · subst hx''
          omega
        · exact ⟨x, hx'', hx'⟩

/-- Behaviour of the `ReadFromUntil` worker over a sorted stored log and a
sorted sequence of watcher inserts: every emitted number lies in `[f, t)`;
emission is strictly increasing; and the worker returns exactly when the
log already contains event `t - 1` inside the range (caught during
catch-up) or some watcher insert is numbered `≥ t`. -/
theorem sendStreamEventsFromUntil_spec (f t : Nat) (log watcher : List (Nat × List Nat))
    (hft : f < t)
    (hlog : List.Pairwise (fun x y => x.1 < y.1) log)
    (hw : List.Pairwise (fun x y => x.1 < y.1) watcher) :
    (∀ x ∈ (sendStreamEventsFromUntil f t log watcher).1, f ≤ x.1 ∧ x.1 < t)
    ∧ List.Pairwise (fun x y => x.1 < y.1) (sendStreamEventsFromUntil f t log watcher).1
    ∧ ((sendStreamEventsFromUntil f t log watcher).2 = true ↔
        (∃ v, (t - 1, v) ∈ log) ∨ (∃ x ∈ watcher, t ≤ x.1)) := by
  have hsorted : List.Pairwise (fun x y : Nat × List Nat => x.1 < y.1)
      (rangeScan f t log) := List.Pairwise.filter _ hlog
  have hkeys : ∀ x ∈ rangeScan f t log, x.1 < t :=
    fun x hx => ((rangeScan_mem f t log x).1 hx).2.2
  have hbridge : (∃ v, (t - 1, v) ∈ rangeScan f t log) ↔ (∃ v, (t - 1, v) ∈ log) := by
    constructor
    · rintro ⟨v, hv⟩
      exact ⟨v, ((rangeScan_mem f t log _).1 hv).1⟩
    · rintro ⟨v, hv⟩
      refine ⟨v, (rangeScan_mem f t log _).2 ⟨hv, ?_, ?_⟩⟩
      · simp only []
        omega
      · simp only []
        omega
  have hmem := scanPhase_mem t (rangeScan f t log) f
  have hsub := scanPhase_sublist t (rangeScan f t log) f
  have hnone := scanPhase_none_iff t (rangeScan f t log) f hkeys
  have hsome := scanPhase_some t (rangeScan f t log) f hsorted
  rcases hsc : scanPhase t (rangeScan f t log) f with ⟨em, st⟩
  rw [hsc] at hmem hsub hnone hsome
  simp only at hmem hsub hnone hsome
  have hemPairwise : List.Pairwise (fun x y : Nat × List Nat => x.1 < y.1) em :=
    List.Pairwise.sublist hsub hsorted
  have hemRange : ∀ x ∈ em, f ≤ x.1 ∧ x.1 < t := by
    intro x hx
    have := (rangeScan_mem f t log x).1 (hmem x hx)
    exact ⟨this.2.1, this.2.2⟩
  cases st with
  | none =>
    simp only [sendStreamEventsFromUntil, hsc]
    refine ⟨hemRange, hemPairwise, ?_⟩
    constructor
    · intro _
      exact Or.inl (hbridge.1 (hnone.1 rfl))
    · intro _
      trivial
  | some next =>
    obtain ⟨hnextCase, hemBelow⟩ := hsome next rfl
    have hnextf : f ≤ next := by
      rcases hnextCase with hc | ⟨x, hx, hx'⟩
      · omega
      · have := ((rangeScan_mem f t log x).1 hx).2.1
        omega
    have htailMem := tailPhase_mem t next watcher
    have htailSub := tailPhase_sublist t next watcher
    have htailFin := tailPhase_fin_iff t next watcher
    simp only [sendStreamEventsFromUntil, hsc]
    rcases htp : tailPhase t next watcher with ⟨em2, fin⟩
    rw [htp] at htailMem htailSub htailFin
    simp only at htailMem htailSub htailFin
    refine ⟨?_, ?_, ?_⟩
    · intro x hx
      rcases List.mem_append.1 hx with h | h
      · exact hemRange x h
      · have := htailMem x h
        omega
    · rw [List.pairwise_append]
      refine ⟨hemPairwise, List.Pairwise.sublist htailSub hw, ?_⟩
      intro a ha b hb
      have h1 := hemBelow a ha
      have h2 := (htailMem b hb).1
      omega
    · rw [htailFin]
      have hnotnone : ¬ ∃ v, (t - 1, v) ∈ log := by
        intro hex
        have := hnone.2 (hbridge.2 hex)
        simp at this
      constructor
      · intro hx
        exact Or.inr hx
      · rintro (hx | hx)
        · exact absurd hx hnotnone
        · exact hx

/-! ### Properties of event numbering and publish -/

theorem newEventNumber_first (counters : List (List Nat × Nat)) (name : List Nat)
    (h : assocGet counters name = none) :
    (newEventNumber counters name).1 = 0 := by
  simp [newEventNumber, h]

theorem newEventNumber_step (counters : List (List Nat × Nat)) (name : List Nat)
    (p : Nat) (h : assocGet counters name = some p) :
    (newEventNumber counters name).1 = (p + 1) % 2 ^ 64 := by
  simp [newEventNumber, h, eventNumberNext]

theorem publishSeq_counter (stream en ed : List Nat) (k : Nat) (st : ServerState)
    (h0 : assocGet st.counters stream = none) (hk : 1 ≤ k) (hk2 : k ≤ 2 ^ 64) :
    assocGet (publishSeq stream en ed k st).counters stream = some (k - 1) := by
  induction k with
  | zero => omega
  | succ k ih =>
    by_cases hk0 : k = 0
    · subst hk0
      simp only [publishSeq, handlePublish, newEventNumber, h0]
      exact assocGet_put_self _ _ _
    · have hprev := ih (by omega) (by omega)
      simp only [publishSeq, handlePublish, newEventNumber, hprev]
      have : eventNumberNext (k - 1) = k := by
        simp only [eventNumberNext]
        have : k - 1 + 1 = k := by omega
        rw [this]
        exact Nat.mod_eq_of_lt (by omega)
      simp only [this]
      have := assocGet_put_self
        (publishSeq stream en ed k st).counters stream k
      simpa using this

theorem publishSeq_counter_other (stream en ed ghost : List Nat) (k : Nat)
    (st : ServerState) (h : ghost ≠ stream) :
    assocGet (publishSeq stream en ed k st).counters ghost
      = assocGet st.counters ghost := by
  induction k with
  | zero => simp [publishSeq]
  | succ k ih =>
    simp only [publishSeq, handlePublish, newEventNumber]
    rw [if_neg Bool.false_ne_true]
    dsimp only
    rw [assocGet_put_other _ _ _ _ h, ih]

/-- Failed publish followed by a successful one: the error reply leaves the
tree untouched but the counter advanced; the retry is allocated the next
(strictly larger) number, writes it, and the failed number stays unwritten. -/
theorem handlePublish_failure_gap (st : ServerState) (s en1 ed1 en2 ed2 : List Nat)
    (st1 : ServerState) (ok1 : Bool) (n1 : Nat)
    (h1 : handlePublish st s en1 ed1 true = (st1, ok1, n1))
    (st2 : ServerState) (ok2 : Bool) (n2 : Nat)
    (h2 : handlePublish st1 s en2 ed2 false = (st2, ok2, n2))
    (hno : n1 + 1 < 2 ^ 64) :
    ok1 = false
    ∧ st1.trees = st.trees
    ∧ assocGet st1.counters s = some n1
    ∧ ok2 = true
    ∧ n2 = n1 + 1
    ∧ assocGet (treeOf st2 s) n2 = some (encodeRawEvent en2 ed2)
    ∧ (assocGet (treeOf st s) n1 = none → assocGet (treeOf st2 s) n1 = none) := by
  simp only [handlePublish, newEventNumber] at h1
  injection h1 with hA h1'
  injection h1' with hB hC
  subst hA
  subst hB
  simp only [handlePublish, newEventNumber, assocGet_put_self, hC] at h2
  injection h2 with hD h2'
  injection h2' with hE hF
  subst hD
  subst hE
  subst hF
  have hn2 : eventNumberNext n1 = n1 + 1 := by
    simp only [eventNumberNext]
    exact Nat.mod_eq_of_lt hno
  refine ⟨rfl, rfl, ?_, rfl, hn2, ?_, ?_⟩
  · rw [assocGet_put_self]
    exact congrArg _ hC
  · simp only [treeOf, assocGet_put_self, Option.getD]
  · intro hnone
    simp only [treeOf, assocGet_put_self, Option.getD]
    rw [hn2, assocGet_put_other _ _ _ _ (by omega)]
    simpa [treeOf] using hnone

/-! ### Properties of request parsing and the clients -/

theorem requestFromResp_subscribe (args : List RespValue) (streams : List EsStream)
    (h : args.mapM streamFromResp = some streams) :
    requestFromResp (.array (.bulkString subscribeBytes :: args))
      = match streams.find? (fun st => decide (st.name = allStreamsName)) with
        | some st => .ok (.subscribeAll st.range)
        | none => .ok (.subscribe streams) := by
  have hcmd : stringFromResp (.bulkString subscribeBytes) = some subscribeBytes := rfl
  simp only [requestFromResp, hcmd, if_pos rfl, h, if_true]

/-- Claim C1.  The RESP codec does *not* round-trip bulk strings whose bytes
contain CRLF: `decode_bulk_string` reads the payload up to the first CRLF
instead of taking the announced length.  Encoding `BulkString [13, 10]`
produces the frame `$2\r\n\r\n\r\n`, but decoding that frame yields
`BulkString []` with only 6 of the 8 frame bytes consumed. -/
theorem C1_codec_roundtrip_bug :
    encodeResp (.bulkString [13, 10]) = .ok [36, 50, 13, 10, 13, 10, 13, 10]
    ∧ decodeMessage [36, 50, 13, 10, 13, 10, 13, 10]
        = .ok (some (.bulkString [], 6))
    ∧ RespValue.bulkString [] ≠ RespValue.bulkString [13, 10]
    ∧ (6 : Nat) ≠ [36, 50, 13, 10, 13, 10, 13, 10].length :=
  ⟨rfl, rfl, by simp, by simp⟩

/-- Claim C2.  A strict prefix of a valid frame can decode to an error: for
the frame of `Array [BulkString [13, 10], Integer 0]`, the 12-byte prefix
ends right after the bulk element, whose buggy decode consumes only 6 of
its 8 bytes, so the element loop continues at a stray `\r` and fails with
`InvalidPrefixByte 13` instead of answering "need more bytes". -/
theorem C2_split_decode_bug :
    encodeResp (.array [.bulkString [13, 10], .integer 0])
      = .ok [42, 50, 13, 10, 36, 50, 13, 10, 13, 10, 13, 10, 58, 48, 13, 10]
    ∧ List.take 12 [42, 50, 13, 10, 36, 50, 13, 10, 13, 10, 13, 10, 58, 48, 13, 10]
      = [42, 50, 13, 10, 36, 50, 13, 10, 13, 10, 13, 10]
    ∧ decodeMessage [42, 50, 13, 10, 36, 50, 13, 10, 13, 10, 13, 10]
      = .error (.invalidPrefixByte 13) :=
  ⟨rfl, rfl, rfl⟩

/-- Claim C3, counterexample.  With range `0:2`, an empty log and watcher
inserts numbered `1, 1`, the worker emits `1` twice (the tail never
advances `next`) and does not return even though event `b - 1 = 1` was
delivered — refuting "strictly increasing with no duplicates" and "returns
once `b-1` has been delivered" as stated for arbitrary insert sequences. -/
theorem C3_bounded_range_counterexample :
    (sendStreamEventsFromUntil 0 2 [] [(1, []), (1, [])]).1 = [(1, []), (1, [])]
    ∧ (sendStreamEventsFromUntil 0 2 [] [(1, []), (1, [])]).2 = false
    ∧ ¬ List.Pairwise (fun x y : Nat × List Nat => x.1 < y.1)
        (sendStreamEventsFromUntil 0 2 [] [(1, []), (1, [])]).1 :=
  ⟨rfl, rfl, by decide⟩

/-- Claim C3, amended.  For a `name:a:b` subscription over a sorted stored
log, and watcher inserts that are strictly increasing (as successive
publishes are), every emitted event number lies in `[a, b)` and emission is
strictly increasing with no duplicates; the worker returns exactly when the
log already contains event `b - 1` (caught during catch-up, where
`next ≥ to` triggers the return) or when a watcher insert numbered `≥ b`
arrives — delivery of `b - 1` by the tail alone does not make it return. -/
theorem C3_bounded_range_amended (f t : Nat) (log watcher : List (Nat × List Nat))
    (hft : f < t)
    (hlog : List.Pairwise (fun x y => x.1 < y.1) log)
    (hw : List.Pairwise (fun x y => x.1 < y.1) watcher) :
    (∀ x ∈ (sendStreamEventsFromUntil f t log watcher).1, f ≤ x.1 ∧ x.1 < t)
    ∧ List.Pairwise (fun x y : Nat × List Nat => x.1 < y.1)
        (sendStreamEventsFromUntil f t log watcher).1
    ∧ ((sendStreamEventsFromUntil f t log watcher).2 = true ↔
        (∃ v, (t - 1, v) ∈ log) ∨ (∃ x ∈ watcher, t ≤ x.1)) :=
  sendStreamEventsFromUntil_spec f t log watcher hft hlog hw

/-- Witness for the amended claim C3 at `a = 0`, `b = 2`, log `[(1, v)]`,
no watcher inserts. -/
theorem C3_bounded_range_amended_witness :
    (∀ x ∈ (sendStreamEventsFromUntil 0 2 [(1, [])] []).1, 0 ≤ x.1 ∧ x.1 < 2)
    ∧ List.Pairwise (fun x y : Nat × List Nat => x.1 < y.1)
        (sendStreamEventsFromUntil 0 2 [(1, [])] []).1
    ∧ ((sendStreamEventsFromUntil 0 2 [(1, [])] []).2 = true ↔
        (∃ v, (2 - 1, v) ∈ [((1 : Nat), ([] : List Nat))])
          ∨ (∃ x ∈ ([] : List (Nat × List Nat)), 2 ≤ x.1)) :=
  C3_bounded_range_amended 0 2 [(1, [])] [] (by decide) (by decide) (by decide)

/-- Claim C4.  The `Subscribed` answering the caller's own initial
subscribe is *not* forwarded: `start_send` records the stream in the state
table before the request even reaches the server, and `poll` swallows any
`SubscribedTo` whose stream is a key of the table — contradicting the
code's own comment that only re-subscriptions after a reconnect are
swallowed.  Starting from an empty session, subscribing to `"hello"` and
then receiving the server's `SubscribedTo ["hello"]` yields a swallow. -/
theorem C4_subscribed_echo_bug :
    startSendSubscribe [] [⟨[104, 101, 108, 108, 111], .fromEnd⟩]
      = [([104, 101, 108, 108, 111], none)]
    ∧ pollMessage [([104, 101, 108, 108, 111], none)]
        (.subscribedTo [[104, 101, 108, 108, 111]])
      = .swallowed [([104, 101, 108, 108, 111], none)] :=
  ⟨rfl, rfl⟩

/-- Claim C6.  The counter update returns 0 on a stream's first publish and
the previous value plus one afterwards; hence after `k` sequential
publishes `LastEventNumber` answers `Some (k - 1)`, and `None` for a stream
never published to. -/
theorem C6_event_numbering :
    (∀ (counters : List (List Nat × Nat)) (name : List Nat),
      assocGet counters name = none → (newEventNumber counters name).1 = 0)
    ∧ (∀ (counters : List (List Nat × Nat)) (name : List Nat) (p : Nat),
      assocGet counters name = some p → p + 1 < 2 ^ 64 →
      (newEventNumber counters name).1 = p + 1)
    ∧ (∀ (stream en ed : List Nat) (k : Nat), 1 ≤ k → k ≤ 2 ^ 64 →
      handleLastEventNumber (publishSeq stream en ed k ⟨[], []⟩) stream = some (k - 1))
    ∧ (∀ (stream en ed ghost : List Nat) (k : Nat), ghost ≠ stream →
      handleLastEventNumber (publishSeq stream en ed k ⟨[], []⟩) ghost = none) := by
  refine ⟨newEventNumber_first, ?_, ?_, ?_⟩
  · intro counters name p h hlt
    rw [newEventNumber_step counters name p h]
    exact Nat.mod_eq_of_lt hlt
  · intro stream en ed k h1 h2
    exact publishSeq_counter stream en ed k ⟨[], []⟩ rfl h1 h2
  · intro stream en ed ghost k h
    simp only [handleLastEventNumber]
    rw [publishSeq_counter_other stream en ed ghost k ⟨[], []⟩ h]
    rfl

/-- Witness for claim C6: three publishes to `hello` give
`last-event-number = Some 2`; the untouched stream `ghost` answers
`None`. -/
theorem C6_event_numbering_witness :
    handleLastEventNumber (publishSeq [104] [84] [] 3 ⟨[], []⟩) [104] = some 2
    ∧ handleLastEventNumber (publishSeq [104] [84] [] 3 ⟨[], []⟩) [103] = none := by
  constructor
  · have h := C6_event_numbering.2.2.1 [104] [84] [] 3 (by decide) (by decide)
    simpa using h
  · exact C6_event_numbering.2.2.2 [104] [84] [] [103] 3 (by decide)

/-- Claim C7.  `RawEvent::name` does *not* fail gracefully when the length
prefix exceeds the value: the slice `value[8..8 + name_size]` panics
(out-of-bounds) for the empty value, for an 8-byte value announcing a
1-byte name, and for any value shorter than 8 bytes — while a well-formed
value decodes to its name. -/
theorem C7_raw_event_bounds_bug :
    rawEventName [] = .panicked
    ∧ rawEventName [0, 0, 0, 0, 0, 0, 0, 1] = .panicked
    ∧ rawEventName [1] = .panicked
    ∧ rawEventName (encodeRawEvent [65] [1, 2]) = .okName [65] :=
  ⟨rfl, rfl, rfl, rfl⟩

/-- Claim C8.  When every argument of a `subscribe` request parses as a
specifier, the request decodes to `SubscribeAll` carrying the range of a
`$all` specifier whenever one is present, and to `Subscribe` with exactly
the parsed specifiers, in order, otherwise. -/
theorem C8_subscribe_all_special :
    ∀ (args : List RespValue) (streams : List EsStream),
      args.mapM streamFromResp = some streams →
      ((∀ st ∈ streams, st.name ≠ allStreamsName) →
        requestFromResp (.array (.bulkString subscribeBytes :: args))
          = .ok (.subscribe streams))
      ∧ ((∃ st ∈ streams, st.name = allStreamsName) →
        ∃ stf ∈ streams, stf.name = allStreamsName ∧
          requestFromResp (.array (.bulkString subscribeBytes :: args))
            = .ok (.subscribeAll stf.range)) := by
  intro args streams h
  have hbase := requestFromResp_subscribe args streams h
  constructor
  · intro hnone
    have hfind : streams.find? (fun st => decide (st.name = allStreamsName)) = none := by
      rw [List.find?_eq_none]
      intro x hx
      simp [hnone x hx]
    rw [hbase, hfind]
  · rintro ⟨st, hst, hname⟩
    have hisSome : (streams.find? (fun st => decide (st.name = allStreamsName))).isSome := by
      rw [List.find?_isSome]
      exact ⟨st, hst, by simp [hname]⟩
    obtain ⟨stf, hstf⟩ := Option.isSome_iff_exists.1 hisSome
    refine ⟨stf, List.mem_of_find?_eq_some hstf, ?_, ?_⟩
    · have hp := List.find?_some hstf
      simpa using hp
    · rw [hbase, hstf]

/-- Witness for claim C8: `subscribe $all` decodes to `SubscribeAll` with
that specifier's range. -/
theorem C8_subscribe_all_special_witness :
    ∃ stf ∈ [(⟨allStreamsName, ReadRange.readFromEnd⟩ : EsStream)],
      stf.name = allStreamsName ∧
      requestFromResp (.array [.bulkString subscribeBytes, .bulkString allStreamsName])
        = .ok (.subscribeAll stf.range) :=
  (C8_subscribe_all_special [.bulkString allStreamsName]
      [⟨allStreamsName, .readFromEnd⟩] rfl).2
    ⟨⟨allStreamsName, .readFromEnd⟩, List.mem_cons_self _ _, rfl⟩

/-- Claim C9.  `Stream::from_str` accepts exactly `name`, `name:u64` and
`name:u64:u64` (non-empty name, split at `':'`, `u64` per
`from_str_radix`); the three-segment form fails with `BoundsError` whenever
`from ≥ to`; and formatting a successfully parsed specifier re-parses to
the same specifier. -/
theorem C9_stream_parsing :
    (∀ s : List Nat, (streamFromStr s).isOk = true ↔
      (match splitColon s with
       | [n] => n ≠ []
       | [n, fS] => n ≠ [] ∧ (parseU64 fS).isSome = true
       | [n, fS, tS] => n ≠ [] ∧
           ∃ f t, parseU64 fS = some f ∧ parseU64 tS = some t ∧ f < t
       | _ => False))
    ∧ (∀ (s n fS tS : List Nat) (f t : Nat),
        splitColon s = [n, fS, tS] → n ≠ [] →
        parseU64 fS = some f → parseU64 tS = some t → f ≥ t →
        streamFromStr s = .error .boundsError)
    ∧ (∀ (s : List Nat) (st : EsStream), streamFromStr s = .ok st →
        streamFromStr (streamToStr st) = .ok st) :=
  ⟨streamFromStr_isOk_iff, streamFromStr_boundsError, streamFromStr_roundTrip⟩

/-- Witness for claim C9: `a:2:1` fails with `BoundsError`, and the parsed
`a:2` prints and re-parses to itself. -/
theorem C9_stream_parsing_witness :
    streamFromStr [97, 58, 50, 58, 49] = .error .boundsError
    ∧ streamFromStr (streamToStr ⟨[97], .readFrom 2⟩) = .ok ⟨[97], .readFrom 2⟩ := by
  constructor
  · exact C9_stream_parsing.2.1 [97, 58, 50, 58, 49] [97] [50] [49] 2 1
      rfl (by decide) rfl rfl (by decide)
  · exact C9_stream_parsing.2.2 [97, 58, 50] ⟨[97], .readFrom 2⟩ rfl

/-- Claim C10.  Publish allocates the event number before inserting the
blob: when the insert fails the server replies with an error while the
counter stays advanced and the tree is untouched; the next successful
publish receives the strictly larger next number, and the failed number is
never written — a permanent gap. -/
theorem C10_publish_gap (st : ServerState) (s en1 ed1 en2 ed2 : List Nat)
    (st1 : ServerState) (ok1 : Bool) (n1 : Nat)
    (h1 : handlePublish st s en1 ed1 true = (st1, ok1, n1))
    (st2 : ServerState) (ok2 : Bool) (n2 : Nat)
    (h2 : handlePublish st1 s en2 ed2 false = (st2, ok2, n2))
    (hno : n1 + 1 < 2 ^ 64) :
    ok1 = false
    ∧ st1.trees = st.trees
    ∧ assocGet st1.counters s = some n1
    ∧ ok2 = true
    ∧ n2 = n1 + 1
    ∧ assocGet (treeOf st2 s) n2 = some (encodeRawEvent en2 ed2)
    ∧ (assocGet (treeOf st s) n1 = none → assocGet (treeOf st2 s) n1 = none) :=
  handlePublish_failure_gap st s en1 ed1 en2 ed2 st1 ok1 n1 h1 st2 ok2 n2 h2 hno

/-- Witness for claim C10: from an empty store, a failed publish to `hello`
burns number 0; the successful retry is written as number 1 and number 0 is
absent from the tree. -/
theorem C10_publish_gap_witness :
    assocGet (treeOf (⟨[([104], 1)], [([104], [(1, encodeRawEvent [85] [])])]⟩
        : ServerState) [104]) 1
      = some (encodeRawEvent [85] [])
    ∧ assocGet (treeOf (⟨[([104], 1)], [([104], [(1, encodeRawEvent [85] [])])]⟩
        : ServerState) [104]) 0
      = none := by
  obtain ⟨g1, g2, g3, g4, g5, g6, g7⟩ := C10_publish_gap ⟨[], []⟩ [104] [84] [] [85] []
    ⟨[([104], 0)], []⟩ false 0 rfl
    ⟨[([104], 1)], [([104], [(1, encodeRawEvent [85] [])])]⟩ true 1 rfl (by decide)
  exact ⟨g6, g7 rfl⟩
